import Mathlib

/-!
Shallow embedding of `purge_gmail.py`, a CLI tool that bulk-trashes or
permanently deletes Gmail messages matching a query.

The remote Gmail API is modelled as an environment: a finite list of
responses to the successive `users().messages().list` requests (the
continuation token is opaque, so the k-th request is determined by the
chain of tokens), and the two mutating endpoints (`batchModify`,
`batchDelete`) are recorded as values rather than performed.  Every
function below is translated from the source file; the structure of the
Python control flow (early `return` on reaching `max_count`, the `break`
on a falsy page token, the 5000-element flush threshold in `main`, the
final flush, and the `except HttpError` handler) is kept intact.
-/

namespace PurgeGmail

/-- One response of the remote `messages.list` endpoint: either a page
(the records, each with an optional `id` field, plus an optional
`nextPageToken`), or an `HttpError` raised by `execute()`. -/
inductive ListResp where
  | ok (messages : List (Option String)) (nextPageToken : Option String)
  | httpError
deriving DecidableEq, Repr

/-- A remote mutating call issued by `process_batch`. -/
inductive MutateCall where
  | batchModify (ids : List String) (addLabelIds : List String) (removeLabelIds : List String)
  | batchDelete (ids : List String)
deriving DecidableEq, Repr

/-- The identifiers carried by a mutating call. -/
def MutateCall.callIds : MutateCall → List String
  | MutateCall.batchModify ids _ _ => ids
  | MutateCall.batchDelete ids => ids

/-- Python truthiness of the `page_token` variable (`if not page_token: break`):
`None` and the empty string are falsy. -/
def tokenTruthy : Option String → Bool
  | none => false
  | some s => !(s == "")

/-- Result of running the `list_message_ids` generator to completion (as the
driver's `for` loop does): the ids yielded in order, the number of `list`
requests issued, and whether an `HttpError` aborted the generator. -/
structure ListerResult where
  yielded : List String
  requests : Nat
  errored : Bool
deriving DecidableEq, Repr

/-- Partial result of the inner `for m in resp.get("messages", [])` loop of
`list_message_ids`: ids yielded from this page, the updated running
total, and whether the `max_count` early `return` fired. -/
structure PageYield where
  ids : List String
  total : Nat
  reachedMax : Bool
deriving DecidableEq, Repr

/-- The inner record loop of `list_message_ids`: before each record it
checks `if max_count and total >= max_count: return`; a record without
an `id` is skipped without incrementing the total. -/
def yieldPage (max_count : Nat) : List (Option String) → Nat → PageYield
  | [], total => ⟨[], total, false⟩
  | m :: rest, total =>
    if max_count ≠ 0 ∧ max_count ≤ total then ⟨[], total, true⟩
    else
      match m with
      | some msgId =>
        let r := yieldPage max_count rest (total + 1)
        ⟨msgId :: r.ids, r.total, r.reachedMax⟩
      | none => yieldPage max_count rest total

/-- The `while True` pagination loop of `list_message_ids`, run against the
environment `env` (the remote's successive responses).  A falsy
`nextPageToken` breaks the loop; an `HttpError` response aborts the
generator; the early `return` inside the record loop ends it.  An empty
`env` means the modelled responses are exhausted, in which case no
further request is modelled. -/
def list_message_ids (max_count : Nat) : List ListResp → Nat → ListerResult
  | [], _ => ⟨[], 0, false⟩
  | ListResp.httpError :: _, _ => ⟨[], 1, true⟩
  | ListResp.ok msgs tok :: rest, total =>
    let p := yieldPage max_count msgs total
    if p.reachedMax then ⟨p.ids, 1, false⟩
    else if tokenTruthy tok then
      let r := list_message_ids max_count rest p.total
      ⟨p.ids ++ r.yielded, 1 + r.requests, r.errored⟩
    else ⟨p.ids, 1, false⟩

/-- `chunks(seq, size)`: `for i in range(0, len(seq), size): yield seq[i:i+size]`.
The slicing loop is rendered as take/drop recursion.  Python raises
`ValueError` for step 0; `main` validates `1 <= size <= 1000` before any
call, so the `size = 0` branch is unreachable there. -/
def chunks (seq : List String) (size : Nat) : List (List String) :=
  if h1 : seq.isEmpty then []
  else if h2 : size = 0 then []
  else seq.take size :: chunks (seq.drop size) size
termination_by seq.length
decreasing_by
  simp only [List.length_drop]
  have hne : seq ≠ [] := by
    intro hcon
    rw [hcon] at h1
    simp at h1
  have : 0 < seq.length := List.length_pos.mpr hne
  omega

/-- `process_batch(service, ids, mode)`: one `batchModify` call adding the
`TRASH` label in trash mode, one `batchDelete` call in delete mode, and a
`ValueError` for any other mode.  The returned list records the remote
mutating calls issued (exactly one in each valid mode). -/
def process_batch (ids : List String) (mode : String) : Except String (List MutateCall) :=
  if mode = "trash" then Except.ok [MutateCall.batchModify ids ["TRASH"] []]
  else if mode = "delete" then Except.ok [MutateCall.batchDelete ids]
  else Except.error "mode must be trash or delete"

/-- Sequential `process_batch` calls over the groups of one flush
(`for group in chunks(buffered, args.batch_size)`), collecting the
mutating calls in order; a `ValueError` propagates. -/
def processGroups (mode : String) : List (List String) → Except String (List MutateCall)
  | [] => Except.ok []
  | g :: gs =>
    match process_batch g mode with
    | Except.ok cs =>
      match processGroups mode gs with
      | Except.ok rest => Except.ok (cs ++ rest)
      | Except.error e => Except.error e
    | Except.error e => Except.error e

/-- Run configuration produced by `argparse` in `main`.  `mode` is a plain
string (argparse restricts it to `trash`/`delete`); `batchSize` is the
raw integer from the command line, validated inside `main`. -/
structure Args where
  mode : String
  query : Option String
  all : Bool
  dryRun : Bool
  batchSize : Int
  max : Nat
  includeSpamTrash : Bool
  sleepMs : Nat
deriving DecidableEq, Repr

/-- Python truthiness of `not args.query`: `None` and the empty string are
both missing. -/
def queryMissing : Option String → Bool
  | none => true
  | some s => s == ""

/-- State of `get_service`'s local token file when the run starts. -/
inductive TokenState where
  | valid
  | expiredRefreshable
  | absentOrInvalid
deriving DecidableEq, Repr

/-- `get_service()`: returns `true` when an authenticated service is
obtained (valid token, refreshable token, or OAuth flow run from an
existing `credentials.json`), and `false` for the `sys.exit(1)` taken
when there is no usable token and `credentials.json` is missing. -/
def get_service (tok : TokenState) (credExists : Bool) : Bool :=
  match tok with
  | TokenState.valid => true
  | TokenState.expiredRefreshable => true
  | TokenState.absentOrInvalid => credExists

/-- The driver's in-memory state inside `main`'s `for msg_id in ...` loop:
the `buffered` list, the running `total`, and the mutating calls issued
so far. -/
structure DriveState where
  buffered : List String
  total : Nat
  calls : List MutateCall
deriving DecidableEq, Repr

/-- The body of `main`'s `for msg_id in list_message_ids(...)` loop: append
the id, bump the total, and on reaching the 5000-element flush threshold
either report (dry-run) or feed the buffer through `chunks` and
`process_batch`, then clear the buffer. -/
def mainLoop (dryRun : Bool) (mode : String) (size : Nat) :
    List String → DriveState → Except String DriveState
  | [], st => Except.ok st
  | msgId :: rest, st =>
    let buffered := st.buffered ++ [msgId]
    let total := st.total + 1
    if 5000 ≤ buffered.length then
      if dryRun then mainLoop dryRun mode size rest ⟨[], total, st.calls⟩
      else
        match processGroups mode (chunks buffered size) with
        | Except.ok cs => mainLoop dryRun mode size rest ⟨[], total, st.calls ++ cs⟩
        | Except.error e => Except.error e
    else mainLoop dryRun mode size rest ⟨buffered, total, st.calls⟩

/-- Observable outcome of one invocation of `main`: the process exit code
(0 = fell off the end of `main`), the mutating calls issued in order, the
final running total, the number of remote `list` requests, the buffered
ids left unflushed at the end, the query value handed to
`list_message_ids` (`none` while the listing stage was never reached),
and whether an uncaught `ValueError` from `process_batch` ended the run. -/
structure RunResult where
  exitCode : Nat
  calls : List MutateCall
  total : Nat
  requests : Nat
  buffered : List String
  listQuery : Option (Option String)
  valueError : Bool
deriving DecidableEq, Repr

/-- `main()`: argument validation (exit 2), authentication (exit 1 when
`get_service` exits), the listing/buffering loop with threshold flushes,
the final flush of any remainder, and the `except HttpError` handler
(exit 1).  An `HttpError` raised by the generator skips the final flush;
the calls already issued before the error stand. -/
def main (args : Args) (tok : TokenState) (credExists : Bool) (env : List ListResp) : RunResult :=
  if args.all = false ∧ queryMissing args.query = true then
    ⟨2, [], 0, 0, [], none, false⟩
  else if ¬ (1 ≤ args.batchSize ∧ args.batchSize ≤ 1000) then
    ⟨2, [], 0, 0, [], none, false⟩
  else if get_service tok credExists = false then
    ⟨1, [], 0, 0, [], none, false⟩
  else
    let q : Option String := if args.all then none else args.query
    let lr := list_message_ids args.max env 0
    let size := args.batchSize.toNat
    match mainLoop args.dryRun args.mode size lr.yielded ⟨[], 0, []⟩ with
    | Except.error _ => ⟨1, [], 0, lr.requests, [], some q, true⟩
    | Except.ok st =>
      if lr.errored then ⟨1, st.calls, st.total, lr.requests, st.buffered, some q, false⟩
      else if st.buffered = [] then ⟨0, st.calls, st.total, lr.requests, st.buffered, some q, false⟩
      else if args.dryRun then ⟨0, st.calls, st.total, lr.requests, st.buffered, some q, false⟩
      else
        match processGroups args.mode (chunks st.buffered size) with
        | Except.ok cs => ⟨0, st.calls ++ cs, st.total, lr.requests, st.buffered, some q, false⟩
        | Except.error _ => ⟨1, st.calls, st.total, lr.requests, st.buffered, some q, true⟩

/-- The single mutating call `process_batch` issues for one group in a
valid mode (used to state what the driver's call trace is). -/
def callOf (mode : String) (ids : List String) : MutateCall :=
  if mode = "trash" then MutateCall.batchModify ids ["TRASH"] []
  else MutateCall.batchDelete ids

/-- The part of a list left in the buffer after all complete 5000-blocks
have been flushed. -/
def leftover (n : Nat) (l : List String) : List String :=
  l.drop (n * (l.length / n))

/-- The complete `n`-blocks of a list: exactly the buffers the driver
flushes from inside the loop (the remainder is flushed after the loop). -/
def completeChunks (n : Nat) (l : List String) : List (List String) :=
  (chunks l n).filter (fun c => c.length = n)

/-- The pages the remote serves before it first "reports no further
pages" (an absent or empty continuation token), that page included.
Stated from the spec's wording, to compare with what the lister yields. -/
def pagesUntilStop : List ListResp → List (List (Option String))
  | [] => []
  | ListResp.httpError :: _ => []
  | ListResp.ok msgs tok :: rest =>
    if tokenTruthy tok then msgs :: pagesUntilStop rest else [msgs]

/-- A response at which the pagination loop stops requesting: a failing
call, or a page whose continuation token is absent or empty. -/
def stopsLoop : ListResp → Bool
  | ListResp.httpError => true
  | ListResp.ok _ tok => !(tokenTruthy tok)

/-- Number of identifiers present on one response page. -/
def idsOnPage : ListResp → Nat
  | ListResp.ok msgs _ => (msgs.filterMap id).length
  | ListResp.httpError => 0

/-- The number of page requests after which the configured maximum has
been reached: the length of the shortest prefix of the environment whose
pages together carry at least `max_count` identifiers.  Stated from the
claim's wording ("stops requesting as soon as the maximum has been
reached"), to compare with the requests the code actually makes. -/
def pagesNeeded (max_count : Nat) : List ListResp → Nat
  | [] => 0
  | p :: rest =>
    if max_count ≤ idsOnPage p then 1
    else 1 + pagesNeeded (max_count - idsOnPage p) rest

/-! ### Lemmas about `chunks` -/

theorem chunks_nil (size : Nat) : chunks [] size = [] := by
  rw [chunks]
  rfl

theorem chunks_cons {seq : List String} {size : Nat} (h : seq ≠ []) (hs : size ≠ 0) :
    chunks seq size = seq.take size :: chunks (seq.drop size) size := by
  rw [chunks]
  rw [dif_neg, dif_neg hs]
  simp [List.isEmpty_iff, h]

theorem chunks_flatten {size : Nat} (hs : size ≠ 0) (seq : List String) :
    (chunks seq size).flatten = seq := by
  suffices H : ∀ (m : Nat) (l : List String), l.length ≤ m → (chunks l size).flatten = l by
    exact H seq.length seq le_rfl
  intro m
  induction m with
  | zero =>
    intro l hlen
    have hl : l = [] := List.length_eq_zero.mp (Nat.le_zero.mp hlen)
    simp [hl, chunks_nil]
  | succ m ih =>
    intro l hlen
    by_cases hl : l = []
    · simp [hl, chunks_nil]
    · rw [chunks_cons hl hs, List.flatten_cons, ih (l.drop size) ?hm]
      · exact List.take_append_drop size l
      case hm =>
        have h1 : 0 < l.length := List.length_pos.mpr hl
        have h2 : 0 < size := Nat.pos_of_ne_zero hs
        simp only [List.length_drop]
        omega

theorem chunks_length {size : Nat} (hs : size ≠ 0) (seq : List String) :
    (chunks seq size).length = (seq.length + size - 1) / size := by
  suffices H : ∀ (m : Nat) (l : List String), l.length ≤ m →
      (chunks l size).length = (l.length + size - 1) / size by
    exact H seq.length seq le_rfl
  intro m
  induction m with
  | zero =>
    intro l hlen
    have hl : l = [] := List.length_eq_zero.mp (Nat.le_zero.mp hlen)
    have hz : (size - 1) / size = 0 := Nat.div_eq_of_lt (by omega)
    simp [hl, chunks_nil, hz]
  | succ m ih =>
    intro l hlen
    by_cases hl : l = []
    · have hz : (size - 1) / size = 0 := Nat.div_eq_of_lt (by omega)
      simp [hl, chunks_nil, hz]
    · have hpos : 0 < size := Nat.pos_of_ne_zero hs
      have hLpos : 0 < l.length := List.length_pos.mpr hl
      rw [chunks_cons hl hs]
      have hdroplen : (l.drop size).length = l.length - size := List.length_drop size l
      have hrec : (chunks (l.drop size) size).length =
          ((l.drop size).length + size - 1) / size := by
        apply ih
        omega
      rw [List.length_cons, hrec, hdroplen]
      have hsplit : l.length + size - 1 = (l.length - 1) + size := by omega
      rw [hsplit, Nat.add_div_right _ hpos]
      rcases Nat.lt_or_ge size l.length with hlt | hle
      · have h3 : l.length - size + size - 1 = (l.length - 1 - size) + size := by omega
        rw [h3, Nat.add_div_right _ hpos]
        have h4 : l.length - 1 = (l.length - 1 - size) + size := by omega
        have h5 : (l.length - 1) / size = (l.length - 1 - size) / size + 1 := by
          conv_lhs => rw [h4]
          exact Nat.add_div_right _ hpos
        rw [h5]
      · have h0 : l.length - size = 0 := by omega
        have h1 : (size - 1) / size = 0 := Nat.div_eq_of_lt (by omega)
        have h2 : (l.length - 1) / size = 0 := Nat.div_eq_of_lt (by omega)
        rw [h0, h2]
        simp [h1]

theorem chunks_mem {size : Nat} (hs : size ≠ 0) (seq : List String) :
    ∀ c ∈ chunks seq size, c ≠ [] ∧ c.length ≤ size := by
  suffices H : ∀ (m : Nat) (l : List String), l.length ≤ m →
      ∀ c ∈ chunks l size, c ≠ [] ∧ c.length ≤ size by
    exact H seq.length seq le_rfl
  intro m
  induction m with
  | zero =>
    intro l hlen c hc
    have hl : l = [] := List.length_eq_zero.mp (Nat.le_zero.mp hlen)
    rw [hl, chunks_nil] at hc
    cases hc
  | succ m ih =>
    intro l hlen c hc
    by_cases hl : l = []
    · rw [hl, chunks_nil] at hc
      cases hc
    · rw [chunks_cons hl hs] at hc
      rcases List.mem_cons.mp hc with hc1 | hc2
      · subst hc1
        constructor
        · intro htake
          rcases List.take_eq_nil_iff.mp htake with h | h
          · exact hs h
          · exact hl h
        · rw [List.length_take]
          exact Nat.min_le_left size l.length
      · apply ih (l.drop size) ?hm c hc2
        case hm =>
          have h1 : 0 < l.length := List.length_pos.mpr hl
          have h2 : 0 < size := Nat.pos_of_ne_zero hs
          simp only [List.length_drop]
          omega

theorem chunks_ne_nil {size : Nat} (hs : size ≠ 0) {seq : List String} (h : seq ≠ []) :
    chunks seq size ≠ [] := by
  rw [chunks_cons h hs]
  exact List.cons_ne_nil _ _

theorem chunks_full {size : Nat} (hs : size ≠ 0) (seq : List String) :
    ∀ i : Nat, i + 1 < (chunks seq size).length →
      ((chunks seq size).getD i []).length = size := by
  suffices H : ∀ (m : Nat) (l : List String), l.length ≤ m →
      ∀ i : Nat, i + 1 < (chunks l size).length →
      ((chunks l size).getD i []).length = size by
    exact H seq.length seq le_rfl
  intro m
  induction m with
  | zero =>
    intro l hlen i hi
    have hl : l = [] := List.length_eq_zero.mp (Nat.le_zero.mp hlen)
    rw [hl, chunks_nil] at hi
    simp at hi
  | succ m ih =>
    intro l hlen i hi
    by_cases hl : l = []
    · rw [hl, chunks_nil] at hi
      simp at hi
    · rw [chunks_cons hl hs] at hi ⊢
      cases i with
      | zero =>
        have hrest : chunks (l.drop size) size ≠ [] := by
          intro hcon
          rw [List.length_cons, hcon] at hi
          simp at hi
        have hdrop : l.drop size ≠ [] := by
          intro hcon
          rw [hcon, chunks_nil] at hrest
          exact hrest rfl
        have hlt : size < l.length := by
          have h1 : (l.drop size).length ≠ 0 := by
            intro hcon
            exact hdrop (List.length_eq_zero.mp hcon)
          simp only [List.length_drop] at h1
          omega
        simp only [List.getD_cons_zero, List.length_take]
        omega
      | succ i =>
        simp only [List.getD_cons_succ]
        apply ih (l.drop size) ?hm i
        · rw [List.length_cons] at hi
          omega
        case hm =>
          have h1 : 0 < l.length := List.length_pos.mpr hl
          have h2 : 0 < size := Nat.pos_of_ne_zero hs
          simp only [List.length_drop]
          omega

theorem chunks_append_full {size : Nat} (hs : size ≠ 0) {l : List String}
    (hl : l.length = size) (r : List String) :
    chunks (l ++ r) size = l :: chunks r size := by
  have hlne : l ≠ [] := by
    intro hcon
    rw [hcon] at hl
    exact hs hl.symm
  have hne : l ++ r ≠ [] := by
    intro hcon
    rcases List.append_eq_nil.mp hcon with ⟨h1, _⟩
    exact hlne h1
  rw [chunks_cons hne hs, List.take_left' hl, List.drop_left' hl]

theorem leftover_small {n : Nat} {l : List String} (h : l.length < n) : leftover n l = l := by
  unfold leftover
  rw [Nat.div_eq_of_lt h, Nat.mul_zero, List.drop_zero]

theorem leftover_append {n : Nat} (hn : 0 < n) {l : List String} (hl : l.length = n)
    (r : List String) : leftover n (l ++ r) = leftover n r := by
  unfold leftover
  rw [List.length_append, hl]
  have h1 : (n + r.length) / n = r.length / n + 1 := by
    rw [Nat.add_comm]
    exact Nat.add_div_right _ hn
  rw [h1, Nat.mul_add, Nat.mul_one, Nat.add_comm (n * (r.length / n)) n,
    ← List.drop_drop, List.drop_left' hl]

theorem chunks_split {size : Nat} (hs : size ≠ 0) (seq : List String) :
    chunks seq size = completeChunks size seq ++
      (if leftover size seq = [] then [] else [leftover size seq]) := by
  suffices H : ∀ (m : Nat) (l : List String), l.length ≤ m →
      chunks l size = completeChunks size l ++
        (if leftover size l = [] then [] else [leftover size l]) by
    exact H seq.length seq le_rfl
  intro m
  induction m with
  | zero =>
    intro l hlen
    have hl : l = [] := List.length_eq_zero.mp (Nat.le_zero.mp hlen)
    simp [hl, chunks_nil, completeChunks, leftover]
  | succ m ih =>
    intro l hlen
    by_cases hl : l = []
    · simp [hl, chunks_nil, completeChunks, leftover]
    · have hpos : 0 < size := Nat.pos_of_ne_zero hs
      have hLpos : 0 < l.length := List.length_pos.mpr hl
      rcases Nat.lt_or_ge l.length size with hlt | hge
      · -- the whole list is a single short chunk, left in the buffer
        have htake : l.take size = l := List.take_of_length_le (Nat.le_of_lt hlt)
        have hdrop : l.drop size = [] := List.drop_eq_nil_of_le (Nat.le_of_lt hlt)
        rw [chunks_cons hl hs, htake, hdrop, chunks_nil]
        have hlo : leftover size l = l := leftover_small hlt
        have hcc : completeChunks size l = [] := by
          unfold completeChunks
          rw [chunks_cons hl hs, htake, hdrop, chunks_nil]
          simp only [List.filter_cons, List.filter_nil]
          have : ¬ (l.length = size) := by omega
          simp [this]
        rw [hcc, hlo]
        simp [hl]
      · rcases Nat.eq_or_lt_of_le hge with heq | hlt2
        · -- exactly one complete chunk, empty leftover
          have htake : l.take size = l := List.take_of_length_le (Nat.le_of_eq heq.symm)
          have hdrop : l.drop size = [] := List.drop_eq_nil_of_le (Nat.le_of_eq heq.symm)
          rw [chunks_cons hl hs, htake, hdrop, chunks_nil]
          have hlo : leftover size l = [] := by
            unfold leftover
            rw [← heq, Nat.div_self (by omega), Nat.mul_one]
            exact hdrop
          have hcc : completeChunks size l = [l] := by
            unfold completeChunks
            rw [chunks_cons hl hs, htake, hdrop, chunks_nil]
            simp only [List.filter_cons, List.filter_nil]
            have : l.length = size := heq.symm
            simp [this]
          rw [hcc, hlo]
          simp
        · -- at least one complete chunk followed by the rest
          have htlen : (l.take size).length = size := by
            rw [List.length_take]
            omega
          have hdlen : (l.drop size).length = l.length - size := List.length_drop size l
          have hrec := ih (l.drop size) (by omega)
          rw [chunks_cons hl hs, hrec]
          have hcc : completeChunks size l =
              l.take size :: completeChunks size (l.drop size) := by
            unfold completeChunks
            rw [chunks_cons hl hs]
            simp only [List.filter_cons]
            simp [htlen]
          have hlo : leftover size l = leftover size (l.drop size) := by
            unfold leftover
            rw [hdlen]
            have h4 : l.length = (l.length - size) + size := by omega
            have h5 : l.length / size = (l.length - size) / size + 1 := by
              conv =>
                lhs
                rw [h4]
              exact Nat.add_div_right _ hpos
            rw [h5, Nat.mul_add, Nat.mul_one,
              Nat.add_comm (size * ((l.length - size) / size)) size, ← List.drop_drop]
          rw [hcc, hlo]
          simp

theorem completeChunks_small {n : Nat} {l : List String} (h : l.length < n) :
    completeChunks n l = [] := by
  by_cases hl : l = []
  · simp [hl, completeChunks, chunks_nil]
  · have hn : n ≠ 0 := by
      have := List.length_pos.mpr hl
      omega
    have htake : l.take n = l := List.take_of_length_le (Nat.le_of_lt h)
    have hdrop : l.drop n = [] := List.drop_eq_nil_of_le (Nat.le_of_lt h)
    unfold completeChunks
    rw [chunks_cons hl hn, htake, hdrop, chunks_nil]
    simp only [List.filter_cons, List.filter_nil]
    have hne : ¬ (l.length = n) := by omega
    simp [hne]

theorem completeChunks_append_full {n : Nat} (hn : n ≠ 0) {l : List String}
    (hl : l.length = n) (r : List String) :
    completeChunks n (l ++ r) = l :: completeChunks n r := by
  unfold completeChunks
  rw [chunks_append_full hn hl]
  simp [List.filter_cons, hl]

/-! ### Lemmas about `process_batch` and the driver loop -/

theorem callIds_callOf (mode : String) (ids : List String) :
    (callOf mode ids).callIds = ids := by
  unfold callOf
  by_cases h : mode = "trash" <;> simp [h, MutateCall.callIds]

theorem process_batch_valid {mode : String} (hm : mode = "trash" ∨ mode = "delete")
    (ids : List String) : process_batch ids mode = Except.ok [callOf mode ids] := by
  rcases hm with h | h <;> subst h <;> rfl

theorem processGroups_valid {mode : String} (hm : mode = "trash" ∨ mode = "delete")
    (gs : List (List String)) :
    processGroups mode gs = Except.ok (gs.map (callOf mode)) := by
  induction gs with
  | nil => rfl
  | cons g gs ih =>
    unfold processGroups
    rw [process_batch_valid hm, ih]
    rfl

theorem mainLoop_dry (mode : String) (size : Nat) :
    ∀ (ys : List String) (st : DriveState), ∃ buf,
      mainLoop true mode size ys st =
        Except.ok ⟨buf, st.total + ys.length, st.calls⟩ := by
  intro ys
  induction ys with
  | nil =>
    intro st
    exact ⟨st.buffered, by simp [mainLoop]⟩
  | cons y ys ih =>
    intro st
    by_cases h : 5000 ≤ (st.buffered ++ [y]).length
    · obtain ⟨buf, hbuf⟩ := ih ⟨[], st.total + 1, st.calls⟩
      refine ⟨buf, ?_⟩
      simp only [mainLoop, if_pos h, if_true]
      rw [hbuf]
      congr 2
      simp [List.length_cons]
      omega
    · obtain ⟨buf, hbuf⟩ := ih ⟨st.buffered ++ [y], st.total + 1, st.calls⟩
      refine ⟨buf, ?_⟩
      simp only [mainLoop, if_neg h]
      rw [hbuf]
      congr 2
      simp [List.length_cons]
      omega

theorem mainLoop_small (d : Bool) (mode : String) (size : Nat) :
    ∀ (ys : List String) (st : DriveState), (st.buffered ++ ys).length < 5000 →
      mainLoop d mode size ys st =
        Except.ok ⟨st.buffered ++ ys, st.total + ys.length, st.calls⟩ := by
  intro ys
  induction ys with
  | nil =>
    intro st hlen
    simp [mainLoop]
  | cons y ys ih =>
    intro st hlen
    have hlt : ¬ 5000 ≤ (st.buffered ++ [y]).length := by
      simp only [List.length_append, List.length_cons] at hlen ⊢
      simp only [List.length_cons, List.length_nil]
      omega
    have hrec := ih ⟨st.buffered ++ [y], st.total + 1, st.calls⟩ (by
      simp only [List.length_append, List.length_cons, List.length_nil] at hlen ⊢
      omega)
    simp only [mainLoop, if_neg hlt]
    rw [hrec]
    congr 2
    · simp [List.append_assoc]
    · simp [List.length_cons]
      omega

theorem mainLoop_live {mode : String} (hm : mode = "trash" ∨ mode = "delete") (size : Nat) :
    ∀ (ys : List String) (st : DriveState), st.buffered.length < 5000 →
      mainLoop false mode size ys st = Except.ok
        ⟨leftover 5000 (st.buffered ++ ys),
         st.total + ys.length,
         st.calls ++ (completeChunks 5000 (st.buffered ++ ys)).flatMap
           (fun b => (chunks b size).map (callOf mode))⟩ := by
  intro ys
  induction ys with
  | nil =>
    intro st hlen
    simp only [mainLoop, List.append_nil]
    rw [leftover_small hlen, completeChunks_small hlen]
    simp
  | cons y ys ih =>
    intro st hlen
    by_cases h : 5000 ≤ (st.buffered ++ [y]).length
    · have hb : (st.buffered ++ [y]).length = 5000 := by
        simp only [List.length_append, List.length_cons, List.length_nil] at h ⊢
        omega
      have hsplit : st.buffered ++ y :: ys = (st.buffered ++ [y]) ++ ys := by
        rw [List.append_assoc, List.singleton_append]
      have hrec := ih ⟨[], st.total + 1,
        st.calls ++ (chunks (st.buffered ++ [y]) size).map (callOf mode)⟩
        (by simp)
      simp only [mainLoop, if_pos h, Bool.false_eq_true, if_false,
        processGroups_valid hm]
      rw [hrec, hsplit]
      rw [leftover_append (by omega) hb, completeChunks_append_full (by omega) hb]
      congr 2
      · simp [List.length_cons]
        omega
      · rw [List.flatMap_cons, List.append_assoc]
        simp
    · have hrec := ih ⟨st.buffered ++ [y], st.total + 1, st.calls⟩ (by
        simp only [List.length_append, List.length_cons, List.length_nil] at h ⊢
        omega)
      have hsplit : st.buffered ++ y :: ys = (st.buffered ++ [y]) ++ ys := by
        rw [List.append_assoc, List.singleton_append]
      simp only [mainLoop, if_neg h]
      rw [hrec, hsplit]
      congr 2
      simp [List.length_cons]
      omega

/-! ### Path characterizations of `main` -/

theorem main_dry (args : Args) (tok : TokenState) (credExists : Bool) (env : List ListResp)
    (hdry : args.dryRun = true) : (main args tok credExists env).calls = [] := by
  unfold main
  split
  · rfl
  · split
    · rfl
    · split
      · rfl
      · obtain ⟨buf, hbuf⟩ := mainLoop_dry args.mode args.batchSize.toNat
          (list_message_ids args.max env 0).yielded ⟨[], 0, []⟩
        rw [hdry]
        dsimp only
        rw [hbuf]
        dsimp only
        split
        · rfl
        · split
          · rfl
          · rfl

theorem main_live (args : Args) (tok : TokenState) (credExists : Bool) (env : List ListResp)
    (hm : args.mode = "trash" ∨ args.mode = "delete")
    (hdry : args.dryRun = false)
    (hv1 : ¬(args.all = false ∧ queryMissing args.query = true))
    (hbs : 1 ≤ args.batchSize ∧ args.batchSize ≤ 1000)
    (hauth : get_service tok credExists = true)
    (herr : (list_message_ids args.max env 0).errored = false) :
    main args tok credExists env = ⟨0,
      (chunks (list_message_ids args.max env 0).yielded 5000).flatMap
        (fun b => (chunks b args.batchSize.toNat).map (callOf args.mode)),
      (list_message_ids args.max env 0).yielded.length,
      (list_message_ids args.max env 0).requests,
      leftover 5000 (list_message_ids args.max env 0).yielded,
      some (if args.all then none else args.query),
      false⟩ := by
  unfold main
  rw [if_neg hv1, if_neg (not_not_intro hbs), if_neg (by rw [hauth]; simp)]
  dsimp only
  rw [hdry]
  have hloop := mainLoop_live hm args.batchSize.toNat
    (list_message_ids args.max env 0).yielded ⟨[], 0, []⟩ (by simp)
  simp only [List.nil_append, Nat.zero_add] at hloop
  rw [hloop]
  dsimp only
  simp only [herr, Bool.false_eq_true, if_false]
  by_cases hlo : leftover 5000 (list_message_ids args.max env 0).yielded = []
  · rw [if_pos hlo]
    have hsplit := chunks_split (by omega : (5000 : Nat) ≠ 0)
      (list_message_ids args.max env 0).yielded
    rw [if_pos hlo, List.append_nil] at hsplit
    rw [← hsplit]
  · rw [if_neg hlo]
    rw [processGroups_valid hm]
    have hsplit := chunks_split (by omega : (5000 : Nat) ≠ 0)
      (list_message_ids args.max env 0).yielded
    rw [if_neg hlo] at hsplit
    rw [hsplit]
    simp [List.flatMap_append]

theorem main_apiError (args : Args) (tok : TokenState) (credExists : Bool) (env : List ListResp)
    (hm : args.mode = "trash" ∨ args.mode = "delete")
    (hdry : args.dryRun = false)
    (hv1 : ¬(args.all = false ∧ queryMissing args.query = true))
    (hbs : 1 ≤ args.batchSize ∧ args.batchSize ≤ 1000)
    (hauth : get_service tok credExists = true)
    (herr : (list_message_ids args.max env 0).errored = true) :
    main args tok credExists env = ⟨1,
      (completeChunks 5000 (list_message_ids args.max env 0).yielded).flatMap
        (fun b => (chunks b args.batchSize.toNat).map (callOf args.mode)),
      (list_message_ids args.max env 0).yielded.length,
      (list_message_ids args.max env 0).requests,
      leftover 5000 (list_message_ids args.max env 0).yielded,
      some (if args.all then none else args.query),
      false⟩ := by
  unfold main
  rw [if_neg hv1, if_neg (not_not_intro hbs), if_neg (by rw [hauth]; simp)]
  dsimp only
  rw [hdry]
  have hloop := mainLoop_live hm args.batchSize.toNat
    (list_message_ids args.max env 0).yielded ⟨[], 0, []⟩ (by simp)
  simp only [List.nil_append, Nat.zero_add] at hloop
  rw [hloop]
  dsimp only
  simp only [herr, if_true]

/-! ### Lemmas about the lister -/

theorem yieldPage_total (max_count : Nat) :
    ∀ (msgs : List (Option String)) (total : Nat),
      (yieldPage max_count msgs total).total =
        total + (yieldPage max_count msgs total).ids.length := by
  intro msgs
  induction msgs with
  | nil =>
    intro total
    simp [yieldPage]
  | cons m rest ih =>
    intro total
    unfold yieldPage
    by_cases h : max_count ≠ 0 ∧ max_count ≤ total
    · simp [h]
    · rw [if_neg h]
      cases m with
      | some msgId =>
        dsimp only
        rw [ih (total + 1)]
        simp only [List.length_cons]
        omega
      | none =>
        exact ih total

theorem yieldPage_le_max {max_count : Nat} (hm : max_count ≠ 0) :
    ∀ (msgs : List (Option String)) (total : Nat), total ≤ max_count →
      (yieldPage max_count msgs total).total ≤ max_count := by
  intro msgs
  induction msgs with
  | nil =>
    intro total h
    simpa [yieldPage] using h
  | cons m rest ih =>
    intro total h
    unfold yieldPage
    by_cases hle : max_count ≤ total
    · rw [if_pos ⟨hm, hle⟩]
      exact h
    · rw [if_neg (by
        intro hcon
        exact hle hcon.2)]
      cases m with
      | some msgId =>
        dsimp only
        exact ih (total + 1) (by omega)
      | none =>
        exact ih total h

theorem list_message_ids_le_max {max_count : Nat} (hm : max_count ≠ 0) :
    ∀ (env : List ListResp) (total : Nat), total ≤ max_count →
      total + (list_message_ids max_count env total).yielded.length ≤ max_count := by
  intro env
  induction env with
  | nil =>
    intro total h
    simpa [list_message_ids] using h
  | cons resp rest ih =>
    intro total h
    cases resp with
    | httpError =>
      simpa [list_message_ids] using h
    | ok msgs tok =>
      unfold list_message_ids
      dsimp only
      have h1 := yieldPage_total max_count msgs total
      have h2 := yieldPage_le_max hm msgs total h
      by_cases hreach : (yieldPage max_count msgs total).reachedMax = true
      · rw [if_pos hreach]
        dsimp only
        omega
      · rw [if_neg hreach]
        by_cases htok : tokenTruthy tok = true
        · rw [if_pos htok]
          dsimp only
          have h3 := ih (yieldPage max_count msgs total).total h2
          simp only [List.length_append]
          omega
        · rw [if_neg htok]
          dsimp only
          omega

theorem yieldPage_zero :
    ∀ (msgs : List (Option String)) (total : Nat),
      yieldPage 0 msgs total =
        ⟨msgs.filterMap id, total + (msgs.filterMap id).length, false⟩ := by
  intro msgs
  induction msgs with
  | nil =>
    intro total
    simp [yieldPage]
  | cons m rest ih =>
    intro total
    unfold yieldPage
    rw [if_neg (by simp)]
    cases m with
    | some msgId =>
      dsimp only
      rw [ih (total + 1)]
      simp only [List.filterMap_cons, id, PageYield.mk.injEq, List.length_cons]
      refine ⟨trivial, by omega, trivial⟩
    | none =>
      rw [ih total]
      simp [List.filterMap_cons, id]

theorem list_message_ids_zero :
    ∀ (env : List ListResp), (∀ r ∈ env, r ≠ ListResp.httpError) →
    ∀ total, (list_message_ids 0 env total).yielded =
      (pagesUntilStop env).flatMap (fun msgs => msgs.filterMap id) := by
  intro env
  induction env with
  | nil =>
    intro _ total
    simp [list_message_ids, pagesUntilStop]
  | cons resp rest ih =>
    intro hok total
    cases resp with
    | httpError =>
      exact absurd rfl (hok _ (List.mem_cons_self _ _))
    | ok msgs tok =>
      unfold list_message_ids pagesUntilStop
      dsimp only
      rw [yieldPage_zero msgs total]
      dsimp only
      rw [if_neg (by simp)]
      by_cases htok : tokenTruthy tok = true
      · rw [if_pos htok, if_pos htok]
        dsimp only
        rw [List.flatMap_cons,
          ih (fun r hr => hok r (List.mem_cons_of_mem _ hr)) (total + (msgs.filterMap id).length)]
      · rw [if_neg htok, if_neg htok]
        simp

theorem list_message_ids_requests_le (max_count : Nat) :
    ∀ (env : List ListResp) (k : Nat) (r : ListResp) (total : Nat),
      env[k]? = some r → stopsLoop r = true →
      (list_message_ids max_count env total).requests ≤ k + 1 := by
  intro env
  induction env with
  | nil =>
    intro k r total hk _
    simp at hk
  | cons resp rest ih =>
    intro k r total hk hstop
    cases resp with
    | httpError =>
      have : (list_message_ids max_count (ListResp.httpError :: rest) total).requests = 1 := rfl
      omega
    | ok msgs tok =>
      unfold list_message_ids
      dsimp only
      by_cases hreach : (yieldPage max_count msgs total).reachedMax = true
      · rw [if_pos hreach]
        dsimp only
        omega
      · rw [if_neg hreach]
        by_cases htok : tokenTruthy tok = true
        · rw [if_pos htok]
          dsimp only
          cases k with
          | zero =>
            rw [List.getElem?_cons_zero] at hk
            injection hk with hr
            rw [← hr] at hstop
            simp [stopsLoop, htok] at hstop
          | succ k =>
            rw [List.getElem?_cons_succ] at hk
            have hrec := ih k r (yieldPage max_count msgs total).total hk hstop
            omega
        · rw [if_neg htok]
          dsimp only
          omega

/-! ### Claim theorems -/

/-- Claim C2: for every list of N identifiers and every batch size B with
1 ≤ B ≤ 1000, `chunks` produces exactly ceil(N/B) batches, each batch has
size at most B, every batch other than the final one has size exactly B,
and the concatenation of the batches in order equals the original list. -/
theorem c2_chunks_shape (ys : List String) (B : Nat) (h1 : 1 ≤ B) (h2 : B ≤ 1000) :
    (chunks ys B).length = (ys.length + B - 1) / B
    ∧ (∀ c ∈ chunks ys B, c.length ≤ B)
    ∧ (∀ i : Nat, i + 1 < (chunks ys B).length → ((chunks ys B).getD i []).length = B)
    ∧ (chunks ys B).flatten = ys := by
  have hB : B ≠ 0 := by omega
  exact ⟨chunks_length hB ys,
    fun c hc => (chunks_mem hB ys c hc).2,
    chunks_full hB ys,
    chunks_flatten hB ys⟩

theorem c2_witness :
    (chunks ["a", "b", "c", "d", "e"] 2).flatten = ["a", "b", "c", "d", "e"]
    ∧ (chunks ["a", "b", "c", "d", "e"] 2).length = 3 := by
  have h := c2_chunks_shape ["a", "b", "c", "d", "e"] 2 (by omega) (by omega)
  refine ⟨h.2.2.2, ?_⟩
  rw [h.1]
  rfl

/-- Claim C8: for every non-empty batch of identifiers, `process_batch`
issues exactly one remote mutation call — in trash mode a single
`batchModify` adding the `TRASH` label for the whole batch, in delete
mode a single `batchDelete` of the whole batch — and for any other mode
value it raises a `ValueError` and issues no remote call. -/
theorem c8_process_batch (ids : List String) (mode : String) (hne : ids ≠ []) :
    (mode = "trash" →
      process_batch ids mode = Except.ok [MutateCall.batchModify ids ["TRASH"] []])
    ∧ (mode = "delete" →
      process_batch ids mode = Except.ok [MutateCall.batchDelete ids])
    ∧ (mode ≠ "trash" → mode ≠ "delete" →
      process_batch ids mode = Except.error "mode must be trash or delete") := by
  refine ⟨?_, ?_, ?_⟩
  · intro h
    subst h
    rfl
  · intro h
    subst h
    rfl
  · intro hn1 hn2
    unfold process_batch
    rw [if_neg hn1, if_neg hn2]

theorem c8_witness :
    process_batch ["m1"] "trash" = Except.ok [MutateCall.batchModify ["m1"] ["TRASH"] []]
    ∧ process_batch ["m1"] "archive" = Except.error "mode must be trash or delete" :=
  ⟨(c8_process_batch ["m1"] "trash" (List.cons_ne_nil _ _)).1 rfl,
   (c8_process_batch ["m1"] "archive" (List.cons_ne_nil _ _)).2.2
     (by decide) (by decide)⟩

/-- Claim C4: for every configured maximum greater than 0 the lister
yields at most that many identifiers; for maximum 0 it yields the present
identifiers of every page up to and including the first page the remote
reports as last, with no count bound. -/
theorem c4_lister_bounds (env : List ListResp) (max_count : Nat) :
    (0 < max_count → (list_message_ids max_count env 0).yielded.length ≤ max_count)
    ∧ (max_count = 0 → (∀ r ∈ env, r ≠ ListResp.httpError) →
      (list_message_ids 0 env 0).yielded =
        (pagesUntilStop env).flatMap (fun msgs => msgs.filterMap id)) := by
  constructor
  · intro h
    have := list_message_ids_le_max (by omega : max_count ≠ 0) env 0 (by omega)
    omega
  · intro _ hok
    exact list_message_ids_zero env hok 0

theorem c4_witness :
    (list_message_ids 2 [ListResp.ok [some "a", some "b", some "c"] none] 0).yielded.length ≤ 2
    ∧ (list_message_ids 0 [ListResp.ok [some "a", none, some "b"] (some "t"),
        ListResp.ok [some "c"] none] 0).yielded =
      (pagesUntilStop [ListResp.ok [some "a", none, some "b"] (some "t"),
        ListResp.ok [some "c"] none]).flatMap (fun msgs => msgs.filterMap id) :=
  ⟨(c4_lister_bounds [ListResp.ok [some "a", some "b", some "c"] none] 2).1 (by omega),
   (c4_lister_bounds [ListResp.ok [some "a", none, some "b"] (some "t"),
      ListResp.ok [some "c"] none] 0).2 rfl (by decide)⟩

/-- Claim C7 (amended): the lister's page loop never requests past a
response that carries no (non-empty) continuation token or that fails,
and a positive configured maximum bounds the number of identifiers
yielded; reaching the maximum stops the yielding, but the loop may still
issue further page requests before it returns. -/
theorem c7_loop_stops (env : List ListResp) (max_count k : Nat) (r : ListResp)
    (hk : env[k]? = some r) (hr : stopsLoop r = true) :
    (list_message_ids max_count env 0).requests ≤ k + 1
    ∧ (0 < max_count → (list_message_ids max_count env 0).yielded.length ≤ max_count) := by
  constructor
  · exact list_message_ids_requests_le max_count env k r 0 hk hr
  · intro h
    have := list_message_ids_le_max (by omega : max_count ≠ 0) env 0 (by omega)
    omega

theorem c7_witness :
    (list_message_ids 1 [ListResp.ok [some "a"] (some "t"),
      ListResp.ok [some "b"] none] 0).requests ≤ 2
    ∧ (0 < 1 → (list_message_ids 1 [ListResp.ok [some "a"] (some "t"),
      ListResp.ok [some "b"] none] 0).yielded.length ≤ 1) :=
  c7_loop_stops [ListResp.ok [some "a"] (some "t"), ListResp.ok [some "b"] none]
    1 1 (ListResp.ok [some "b"] none) (by decide) (by decide)

/-- Claim C7 counterexample: with maximum 1 and a first page that already
reaches the maximum but carries a continuation token, the loop still
requests a second page — two requests where one page suffices to reach
the maximum — so it does not stop requesting as soon as the maximum has
been reached. -/
theorem c7_counterexample :
    (list_message_ids 1 [ListResp.ok [some "a"] (some "t"),
      ListResp.ok [some "b"] none] 0).requests = 2
    ∧ pagesNeeded 1 [ListResp.ok [some "a"] (some "t"), ListResp.ok [some "b"] none] = 1
    ∧ ¬ ((list_message_ids 1 [ListResp.ok [some "a"] (some "t"),
      ListResp.ok [some "b"] none] 0).requests ≤
        pagesNeeded 1 [ListResp.ok [some "a"] (some "t"), ListResp.ok [some "b"] none]) := by
  decide

/-- Claim C6 (amended): supplying neither the target-everything flag nor a
query, or a batch size outside [1, 1000], is reported and exits with code
2 before any remote call; a missing local client-credential file exits
with code 1 before any remote call when no valid or refreshable session
token is present. -/
theorem c6_local_errors (args : Args) (tok : TokenState) (credExists : Bool)
    (env : List ListResp) :
    ((args.all = false ∧ queryMissing args.query = true) →
      main args tok credExists env = ⟨2, [], 0, 0, [], none, false⟩)
    ∧ (¬(args.all = false ∧ queryMissing args.query = true) →
       ¬(1 ≤ args.batchSize ∧ args.batchSize ≤ 1000) →
      main args tok credExists env = ⟨2, [], 0, 0, [], none, false⟩)
    ∧ (¬(args.all = false ∧ queryMissing args.query = true) →
       (1 ≤ args.batchSize ∧ args.batchSize ≤ 1000) →
       tok = TokenState.absentOrInvalid → credExists = false →
      main args tok credExists env = ⟨1, [], 0, 0, [], none, false⟩) := by
  refine ⟨?_, ?_, ?_⟩
  · intro h
    unfold main
    rw [if_pos h]
  · intro h1 h2
    unfold main
    rw [if_neg h1, if_pos h2]
  · intro h1 h2 h3 h4
    unfold main
    rw [if_neg h1, if_neg (not_not_intro h2), if_pos (by rw [h3, h4]; rfl)]

theorem c6_witness :
    main ⟨"trash", none, false, false, 1000, 0, false, 250⟩
      TokenState.valid true [] = ⟨2, [], 0, 0, [], none, false⟩
    ∧ main ⟨"trash", some "q", false, false, 2000, 0, false, 250⟩
      TokenState.valid true [] = ⟨2, [], 0, 0, [], none, false⟩
    ∧ main ⟨"trash", some "q", false, false, 1000, 0, false, 250⟩
      TokenState.absentOrInvalid false [] = ⟨1, [], 0, 0, [], none, false⟩ :=
  ⟨(c6_local_errors ⟨"trash", none, false, false, 1000, 0, false, 250⟩
      TokenState.valid true []).1 (by decide),
   (c6_local_errors ⟨"trash", some "q", false, false, 2000, 0, false, 250⟩
      TokenState.valid true []).2.1 (by decide) (by decide),
   (c6_local_errors ⟨"trash", some "q", false, false, 1000, 0, false, 250⟩
      TokenState.absentOrInvalid false []).2.2 (by decide) (by decide) rfl rfl⟩

/-- Claim C6 counterexample: when a valid stored session token exists, a
missing `credentials.json` does not make the run exit with code 1 — this
dry run completes normally with exit code 0. -/
theorem c6_counterexample :
    (main ⟨"trash", some "x", false, true, 1000, 0, false, 250⟩
      TokenState.valid false [ListResp.ok [] none]).exitCode = 0
    ∧ ¬ ((main ⟨"trash", some "x", false, true, 1000, 0, false, 250⟩
      TokenState.valid false [ListResp.ok [] none]).exitCode = 1) := by
  decide

/-- Claim C9: when the target-everything flag is set together with a
supplied query, the run raises no argument-combination error and the
listing operation is invoked with no filter. -/
theorem c9_all_overrides_query (args : Args) (tok : TokenState) (credExists : Bool)
    (env : List ListResp) (s : String)
    (hall : args.all = true) (hq : args.query = some s)
    (hbs : 1 ≤ args.batchSize ∧ args.batchSize ≤ 1000)
    (hauth : get_service tok credExists = true) :
    (main args tok credExists env).exitCode ≠ 2
    ∧ (main args tok credExists env).listQuery = some none := by
  unfold main
  rw [if_neg (by rw [hall]; simp), if_neg (not_not_intro hbs),
    if_neg (by rw [hauth]; simp)]
  dsimp only
  rw [hall]
  refine ⟨?_, ?_⟩ <;> (repeat' split) <;> simp_all

theorem c9_witness :
    (main ⟨"trash", some "spam", true, true, 1000, 0, false, 250⟩
      TokenState.valid true [ListResp.ok [some "a"] none]).exitCode ≠ 2
    ∧ (main ⟨"trash", some "spam", true, true, 1000, 0, false, 250⟩
      TokenState.valid true [ListResp.ok [some "a"] none]).listQuery = some none :=
  c9_all_overrides_query ⟨"trash", some "spam", true, true, 1000, 0, false, 250⟩
    TokenState.valid true [ListResp.ok [some "a"] none] "spam"
    rfl rfl (by decide) rfl

/-- Claim C5: when the remote list call fails on the second page, the run
aborts with exit code 1 and zero mutating calls have been issued — the
first page's identifiers were appended to the buffer but never flushed,
a single page (at most the requested 500 records) being unable to reach
the 5000-element flush threshold. -/
theorem c5_second_page_failure (args : Args) (tok : TokenState) (credExists : Bool)
    (msgs : List (Option String)) (tok0 : Option String) (rest : List ListResp)
    (hv1 : ¬(args.all = false ∧ queryMissing args.query = true))
    (hbs : 1 ≤ args.batchSize ∧ args.batchSize ≤ 1000)
    (hauth : get_service tok credExists = true)
    (hmax : args.max = 0)
    (hlen : msgs.length ≤ 500)
    (htok : tokenTruthy tok0 = true) :
    (main args tok credExists
      (ListResp.ok msgs tok0 :: ListResp.httpError :: rest)).exitCode = 1
    ∧ (main args tok credExists
      (ListResp.ok msgs tok0 :: ListResp.httpError :: rest)).calls = []
    ∧ (main args tok credExists
      (ListResp.ok msgs tok0 :: ListResp.httpError :: rest)).buffered =
        msgs.filterMap id := by
  have hlr : list_message_ids 0 (ListResp.ok msgs tok0 :: ListResp.httpError :: rest) 0 =
      ⟨msgs.filterMap id, 2, true⟩ := by
    unfold list_message_ids
    dsimp only
    rw [yieldPage_zero msgs 0]
    dsimp only
    rw [if_neg (by simp), if_pos htok]
    simp [list_message_ids]
  have hyslen : ((⟨[], 0, []⟩ : DriveState).buffered ++ msgs.filterMap id).length < 5000 := by
    have := List.length_filterMap_le id msgs
    simp only [List.nil_append]
    omega
  have hml := mainLoop_small args.dryRun args.mode args.batchSize.toNat
    (msgs.filterMap id) ⟨[], 0, []⟩ hyslen
  simp only [List.nil_append, Nat.zero_add] at hml
  unfold main
  rw [if_neg hv1, if_neg (not_not_intro hbs), if_neg (by rw [hauth]; simp)]
  dsimp only
  rw [hmax, hlr]
  dsimp only
  rw [hml]
  dsimp only
  exact ⟨rfl, rfl, rfl⟩

theorem c5_witness :
    (main ⟨"trash", some "q", false, false, 1000, 0, false, 250⟩ TokenState.valid true
      [ListResp.ok [some "a", some "b"] (some "t"), ListResp.httpError]).exitCode = 1
    ∧ (main ⟨"trash", some "q", false, false, 1000, 0, false, 250⟩ TokenState.valid true
      [ListResp.ok [some "a", some "b"] (some "t"), ListResp.httpError]).calls = []
    ∧ (main ⟨"trash", some "q", false, false, 1000, 0, false, 250⟩ TokenState.valid true
      [ListResp.ok [some "a", some "b"] (some "t"), ListResp.httpError]).buffered =
        [some "a", some "b"].filterMap id :=
  c5_second_page_failure ⟨"trash", some "q", false, false, 1000, 0, false, 250⟩
    TokenState.valid true [some "a", some "b"] (some "t") []
    (by decide) (by decide) rfl rfl (by decide) (by decide)

theorem flatten_flatMap_chunks {B : Nat} (hB : B ≠ 0) (l : List (List String)) :
    (l.flatMap (fun b => chunks b B)).flatten = l.flatten := by
  induction l with
  | nil => simp
  | cons b bs ih =>
    rw [List.flatMap_cons, List.flatten_append, ih, chunks_flatten hB, List.flatten_cons]

/-- Claim C1: with the dry-run flag set the driver never issues a mutating
call; in a live run (authenticated, validated) the driver issues exactly
one mutating call per batch the Batcher produces from the 5000-element
flush buffers, in order — including, when the listing fails, the batches
of the complete buffers flushed before the failure. -/
theorem c1_mutation_calls (args : Args) (tok : TokenState) (credExists : Bool)
    (env : List ListResp)
    (hm : args.mode = "trash" ∨ args.mode = "delete") :
    (args.dryRun = true → (main args tok credExists env).calls = [])
    ∧ (args.dryRun = false →
       ¬(args.all = false ∧ queryMissing args.query = true) →
       (1 ≤ args.batchSize ∧ args.batchSize ≤ 1000) →
       get_service tok credExists = true →
       (list_message_ids args.max env 0).errored = false →
       (main args tok credExists env).calls =
         (chunks (list_message_ids args.max env 0).yielded 5000).flatMap
           (fun b => (chunks b args.batchSize.toNat).map (callOf args.mode)))
    ∧ (args.dryRun = false →
       ¬(args.all = false ∧ queryMissing args.query = true) →
       (1 ≤ args.batchSize ∧ args.batchSize ≤ 1000) →
       get_service tok credExists = true →
       (list_message_ids args.max env 0).errored = true →
       (main args tok credExists env).calls =
         (completeChunks 5000 (list_message_ids args.max env 0).yielded).flatMap
           (fun b => (chunks b args.batchSize.toNat).map (callOf args.mode))) := by
  refine ⟨fun hdry => main_dry args tok credExists env hdry, ?_, ?_⟩
  · intro hdry hv1 hbs hauth herr
    rw [main_live args tok credExists env hm hdry hv1 hbs hauth herr]
  · intro hdry hv1 hbs hauth herr
    rw [main_apiError args tok credExists env hm hdry hv1 hbs hauth herr]

theorem c1_witness :
    (main ⟨"trash", some "q", false, true, 1000, 0, false, 250⟩ TokenState.valid true
      [ListResp.ok [some "a"] none]).calls = []
    ∧ (main ⟨"trash", some "q", false, false, 2, 0, false, 250⟩ TokenState.valid true
      [ListResp.ok [some "a", some "b", some "c"] none]).calls =
      [MutateCall.batchModify ["a", "b"] ["TRASH"] [],
       MutateCall.batchModify ["c"] ["TRASH"] []] := by
  constructor
  · exact (c1_mutation_calls ⟨"trash", some "q", false, true, 1000, 0, false, 250⟩
      TokenState.valid true [ListResp.ok [some "a"] none] (Or.inl rfl)).1 rfl
  · have h := (c1_mutation_calls ⟨"trash", some "q", false, false, 2, 0, false, 250⟩
      TokenState.valid true [ListResp.ok [some "a", some "b", some "c"] none]
      (Or.inl rfl)).2.1 rfl (by decide) (by decide) rfl (by decide)
    have hy : (list_message_ids
        (⟨"trash", some "q", false, false, 2, 0, false, 250⟩ : Args).max
        [ListResp.ok [some "a", some "b", some "c"] none] 0).yielded =
        ["a", "b", "c"] := by decide
    rw [h, hy]
    simp [chunks_cons, chunks_nil, callOf]

/-- Claim C3: in a live run that completes without error, concatenating in
order the batches passed to the mutating operation yields exactly the
sequence of identifiers the lister produced, and the reported total
equals the number of identifiers yielded. -/
theorem c3_live_conservation (args : Args) (tok : TokenState) (credExists : Bool)
    (env : List ListResp)
    (hm : args.mode = "trash" ∨ args.mode = "delete")
    (hdry : args.dryRun = false)
    (hv1 : ¬(args.all = false ∧ queryMissing args.query = true))
    (hbs : 1 ≤ args.batchSize ∧ args.batchSize ≤ 1000)
    (hauth : get_service tok credExists = true)
    (herr : (list_message_ids args.max env 0).errored = false) :
    ((main args tok credExists env).calls.map MutateCall.callIds).flatten =
      (list_message_ids args.max env 0).yielded
    ∧ (main args tok credExists env).total =
      (list_message_ids args.max env 0).yielded.length := by
  rw [main_live args tok credExists env hm hdry hv1 hbs hauth herr]
  dsimp only
  refine ⟨?_, rfl⟩
  rw [List.map_flatMap]
  have hmapmap : ∀ b : List String,
      ((chunks b args.batchSize.toNat).map (callOf args.mode)).map MutateCall.callIds =
        chunks b args.batchSize.toNat := by
    intro b
    rw [List.map_map]
    have hco : MutateCall.callIds ∘ callOf args.mode = id := by
      funext x
      simp [callIds_callOf]
    rw [hco, List.map_id]
  simp only [hmapmap]
  have hB : args.batchSize.toNat ≠ 0 := by omega
  rw [flatten_flatMap_chunks hB]
  exact chunks_flatten (by omega) _

theorem c3_witness :
    ((main ⟨"trash", some "q", false, false, 1000, 0, false, 250⟩ TokenState.valid true
      [ListResp.ok [some "a", some "b"] none]).calls.map MutateCall.callIds).flatten =
      ["a", "b"]
    ∧ (main ⟨"trash", some "q", false, false, 1000, 0, false, 250⟩ TokenState.valid true
      [ListResp.ok [some "a", some "b"] none]).total = 2 := by
  have h := c3_live_conservation ⟨"trash", some "q", false, false, 1000, 0, false, 250⟩
    TokenState.valid true [ListResp.ok [some "a", some "b"] none]
    (Or.inl rfl) rfl (by decide) (by decide) rfl (by decide)
  refine ⟨?_, ?_⟩
  · rw [h.1]
    decide
  · rw [h.2]
    decide

/-- Claim C10: in every live run with a validated batch size B in
[1, 1000], every batch the driver passes to the mutating operation is
non-empty and has length at most B. -/
theorem c10_batches_wellformed (args : Args) (tok : TokenState) (credExists : Bool)
    (env : List ListResp)
    (hm : args.mode = "trash" ∨ args.mode = "delete")
    (hdry : args.dryRun = false)
    (hbs : 1 ≤ args.batchSize ∧ args.batchSize ≤ 1000) :
    ∀ c ∈ (main args tok credExists env).calls,
      c.callIds ≠ [] ∧ c.callIds.length ≤ args.batchSize.toNat := by
  have hB : args.batchSize.toNat ≠ 0 := by omega
  intro c hc
  by_cases hv1 : args.all = false ∧ queryMissing args.query = true
  · unfold main at hc
    rw [if_pos hv1] at hc
    simp at hc
  · by_cases hauth : get_service tok credExists = true
    · cases herr : (list_message_ids args.max env 0).errored with
      | false =>
        rw [main_live args tok credExists env hm hdry hv1 hbs hauth herr] at hc
        dsimp only at hc
        rcases List.mem_flatMap.mp hc with ⟨b, hb, hcb⟩
        rcases List.mem_map.mp hcb with ⟨bb, hbb, hceq⟩
        subst hceq
        rw [callIds_callOf]
        exact chunks_mem hB b bb hbb
      | true =>
        rw [main_apiError args tok credExists env hm hdry hv1 hbs hauth herr] at hc
        dsimp only at hc
        rcases List.mem_flatMap.mp hc with ⟨b, hb, hcb⟩
        rcases List.mem_map.mp hcb with ⟨bb, hbb, hceq⟩
        subst hceq
        rw [callIds_callOf]
        exact chunks_mem hB b bb hbb
    · have hga : get_service tok credExists = false := by
        revert hauth
        cases get_service tok credExists <;> simp
      unfold main at hc
      rw [if_neg hv1, if_neg (not_not_intro hbs), if_pos hga] at hc
      simp at hc

theorem c10_witness :
    (MutateCall.batchModify ["a", "b"] ["TRASH"] []).callIds ≠ []
    ∧ (MutateCall.batchModify ["a", "b"] ["TRASH"] []).callIds.length ≤ (2 : Int).toNat := by
  have hcalls : (main ⟨"trash", some "q", false, false, 2, 0, false, 250⟩ TokenState.valid true
      [ListResp.ok [some "a", some "b", some "c"] none]).calls =
      [MutateCall.batchModify ["a", "b"] ["TRASH"] [],
       MutateCall.batchModify ["c"] ["TRASH"] []] := by
    rw [main_live ⟨"trash", some "q", false, false, 2, 0, false, 250⟩ TokenState.valid true
      [ListResp.ok [some "a", some "b", some "c"] none]
      (Or.inl rfl) rfl (by decide) (by decide) rfl (by decide)]
    dsimp only
    have hy : (list_message_ids
        (⟨"trash", some "q", false, false, 2, 0, false, 250⟩ : Args).max
        [ListResp.ok [some "a", some "b", some "c"] none] 0).yielded =
        ["a", "b", "c"] := by decide
    rw [hy]
    simp [chunks_cons, chunks_nil, callOf]
  exact c10_batches_wellformed ⟨"trash", some "q", false, false, 2, 0, false, 250⟩
    TokenState.valid true [ListResp.ok [some "a", some "b", some "c"] none]
    (Or.inl rfl) rfl (by decide)
    (MutateCall.batchModify ["a", "b"] ["TRASH"] []) (by
      rw [hcalls]
      decide)

end PurgeGmail
